import Mathlib

set_option maxHeartbeats 1000000

namespace DocKernel

/-! # Shallow embedding of the dockernel pagination / preflight core

The pagination core (`lib/paging.ts`) and the preflight analyzer
(`lib/preflight.ts`) are referenced by every UI component but their sources are
not part of the source tree available here; they are modelled from the
specification.  The UI-side helpers (`updatePageContent`, `markdownUrlTransform`,
`escapeHtml`, `encodeBase64Url`, `decodeBase64Url`) are translated directly from
their sources. -/

/-- Modelled from the spec: the page-break marker is "a fixed literal string
constant shared by both the editing surface and the paginator"; the constant
`PAGE_BREAK_TOKEN` of `lib/paging.ts` is not in the available sources, so we
pick the canonical token `[PAGE_BREAK]` as the spec instructs a reimplementation
to do. -/
def PAGE_BREAK_TOKEN : String := "[PAGE_BREAK]"

/-- The marker as a character list. -/
def MARKER : List Char := PAGE_BREAK_TOKEN.data

/-- Whitespace test used for trimming (space, tab, carriage return, newline). -/
def wsChar (c : Char) : Bool := c.isWhitespace

/-- Remove leading and trailing whitespace from a character list
(the model of `String.prototype.trim`). -/
def trimChars (l : List Char) : List Char :=
  ((l.dropWhile wsChar).reverse.dropWhile wsChar).reverse

/-- Modelled from the spec: split a marker-free segment into paragraph units,
"maximal runs of text separated by blank lines — two or more consecutive
newlines".  The scan closes the current unit whenever the next two characters
are both newlines; residual single newlines at a unit's edge are removed by the
per-paragraph trim in `paragraphsOf`, so the trimmed, non-empty units are
exactly the maximal-run paragraphs. -/
def splitParasAux : List Char → List Char → List (List Char)
  | [], acc => [acc.reverse]
  | c :: rest, acc =>
    if c = '\n' ∧ rest.head? = some '\n' then
      acc.reverse :: splitParasAux rest []
    else
      splitParasAux rest (c :: acc)

/-- The raw paragraph units of a segment (untrimmed, empties kept). -/
def rawParagraphs (l : List Char) : List (List Char) := splitParasAux l []

/-- Modelled from the spec: the paragraph units actually accumulated by the
paginator — trimmed, with pure-whitespace units dropped ("Empty paragraphs
(pure whitespace) are dropped"). -/
def paragraphsOf (l : List Char) : List (List Char) :=
  ((rawParagraphs l).map trimChars).filter (fun p => !p.isEmpty)

/-- Scanner for splitting the buffer on the page-break marker.  The `skip`
counter consumes the remaining characters of a just-recognized marker, which
keeps the recursion structural. -/
def splitMarkerSkip : List Char → Nat → List Char → List (List Char)
  | [], _, acc => [acc.reverse]
  | _ :: rest, k + 1, acc => splitMarkerSkip rest k acc
  | c :: rest, 0, acc =>
    if MARKER.isPrefixOf (c :: rest) then
      acc.reverse :: splitMarkerSkip rest (MARKER.length - 1) []
    else
      splitMarkerSkip rest 0 (c :: acc)

/-- Modelled from the spec: "Split the buffer on the page-break marker first."
Returns the marker-delimited segments in order; the marker itself is consumed. -/
def splitMarker (l : List Char) : List (List Char) := splitMarkerSkip l 0 []

/-- Join pages/paragraphs with a blank-line separator (the model of
`join('\n\n')`). -/
def joinPages : List (List Char) → List Char
  | [] => []
  | [p] => p
  | p :: ps => p ++ '\n' :: '\n' :: joinPages ps

/-- Modelled from the spec: greedy accumulation of paragraphs into pages.
A group is the list of paragraphs of one page; "append the next paragraph
(plus separating blank line) if doing so keeps the page at or under
`softLimit`; otherwise close the current page and start a new page with that
paragraph." -/
def greedyGroups (limit : Int) : List (List Char) → List (List Char) → List (List (List Char))
  | [], cur => if cur.isEmpty then [] else [cur]
  | p :: ps, cur =>
    if cur.isEmpty then
      greedyGroups limit ps [p]
    else if ((joinPages cur).length + 2 + p.length : Int) ≤ limit then
      greedyGroups limit ps (cur ++ [p])
    else
      cur :: greedyGroups limit ps [p]

/-- A page is its paragraph group joined with blank lines, trimmed on emission
("close the current page (emit it, trimmed)"). -/
def pageOfGroup (g : List (List Char)) : List Char := trimChars (joinPages g)

/-- Emit the final page list: "If after all processing zero pages resulted
(fully empty buffer), emit a single empty-string page". -/
def emitPages (pages : List (List Char)) : List String :=
  if pages.isEmpty then [""] else pages.map (fun p => String.mk p)

/-- The pages (as character lists) of all marker-delimited segments in order. -/
def allPages (buffer : String) (softLimit : Int) : List (List Char) :=
  ((splitMarker buffer.data).map
    (fun seg => (greedyGroups softLimit (paragraphsOf seg) []).map pageOfGroup)).flatten

/-- Modelled from the spec: `splitContentIntoPages(buffer, softLimit)` of
`lib/paging.ts` — split on the marker, split each segment into paragraphs,
greedily pack paragraphs into pages under the soft limit, and fall back to a
single empty page when nothing remains. -/
def splitContentIntoPages (buffer : String) (softLimit : Int) : List String :=
  emitPages (allPages buffer softLimit)

/-- Translated from `src/app/components/EditorPanel.tsx` (`updatePageContent`):
replace page `pageIndex` by `value`, then rebuild the buffer as
`nextPages.map(trim).filter(nonempty).join('\n\n')`.  The component calls the
paginator with the fixed soft limit 1800; the limit is kept as a parameter. -/
def updatePageContent (content : String) (softLimit : Int) (pageIndex : Nat)
    (value : String) : String :=
  String.mk (joinPages
    ((((splitContentIntoPages content softLimit).set pageIndex value).map
      (fun p => trimChars p.data)).filter (fun p => !p.isEmpty)))

/-- Does the marker occur (as a contiguous substring) in `l`?  Decidable form
used in theorem statements. -/
def containsTok (l : List Char) : Bool := l.tails.any (fun t => MARKER.isPrefixOf t)

/-- Does `l` contain two adjacent newline characters (a blank-line separator)? -/
def hasDbl : List Char → Bool
  | [] => false
  | c :: rest =>
    (match rest with
     | d :: _ => c = '\n' && d = '\n'
     | _ => false) || hasDbl rest

/-- A paragraph as produced by `paragraphsOf`: trimmed, non-empty, and free of
blank-line separators. -/
def goodPara (p : List Char) : Prop :=
  trimChars p = p ∧ p ≠ [] ∧ hasDbl p = false

/-! ## Preflight analyzer (modelled from the spec) -/

/-- Preflight severity, totally ordered: `none < minor < major`. -/
inductive Severity
  | none
  | minor
  | major
deriving DecidableEq

/-- A preflight issue: a stable id plus human-readable title and text. -/
structure PreflightIssue where
  id : String
  title : String
  text : String
deriving DecidableEq

/-- Result of the preflight analyzer: a severity and the issues in detection
order. -/
structure PreflightReport where
  severity : Severity
  issues : List PreflightIssue
deriving DecidableEq

/-- Rank of a severity in the total order `none < minor < major`. -/
def sevRank : Severity → Nat
  | Severity.none => 0
  | Severity.minor => 1
  | Severity.major => 2

/-- The maximum of two severities ("result severity = the maximum-rank issue
found"). -/
def maxSev (a b : Severity) : Severity := if sevRank a ≤ sevRank b then b else a

/-- Split a text into its lines at newline characters (for the `^`-anchored
line checks). -/
def linesSplit : List Char → List Char → List (List Char)
  | [], acc => [acc.reverse]
  | c :: rest, acc =>
    if c = '\n' then acc.reverse :: linesSplit rest []
    else linesSplit rest (c :: acc)

/-- All lines of a text. -/
def linesOf (l : List Char) : List (List Char) := linesSplit l []

/-- A heading line: one to six `#` followed by a whitespace character. -/
def headingLine (l : List Char) : Bool :=
  let hs := l.takeWhile (fun c => c = '#')
  decide (1 ≤ hs.length) && decide (hs.length ≤ 6) &&
    (match (l.drop hs.length).head? with
     | some c => wsChar c
     | Option.none => false)

/-- A bullet list line: `-` or `*` followed by a whitespace character. -/
def bulletLine : List Char → Bool
  | '-' :: c :: _ => wsChar c
  | '*' :: c :: _ => wsChar c
  | _ => false

/-- A numbered list line: digits, a dot, then a whitespace character. -/
def numberedLine (l : List Char) : Bool :=
  let ds := l.takeWhile (fun c => c.isDigit)
  decide (1 ≤ ds.length) &&
    (match l.drop ds.length with
     | '.' :: c :: _ => wsChar c
     | _ => false)

/-- Modelled from the spec: "does the buffer contain recognizable block
structure (heading markers, bullet/numbered list markers, or paragraph
breaks)?" -/
def hasBlockStructure (l : List Char) : Bool :=
  hasDbl l ||
    (linesOf l).any (fun ln => headingLine ln || bulletLine ln || numberedLine ln)

/-- Adjacent pair of segments that are both blank (a marker with no adjacent
content on either side). -/
def adjacentEmptySegs : List (List Char) → Bool
  | [] => false
  | a :: rest =>
    (match rest with
     | b :: _ => (trimChars a).isEmpty && (trimChars b).isEmpty
     | _ => false) || adjacentEmptySegs rest

/-- Modelled from the spec: "a page-break marker found with no adjacent content
on either side". -/
def hasDanglingMarker (l : List Char) : Bool := adjacentEmptySegs (splitMarker l)

/-- The structure-check issue (severity `minor`). -/
def structureIssue : PreflightIssue :=
  ⟨"structure", "No document structure", "Content may render as an unstructured blob."⟩

/-- The oversized-segment issue (severity `major`). -/
def oversizeIssue : PreflightIssue :=
  ⟨"oversized-page", "Oversized page", "At least one page far exceeds the target page size."⟩

/-- The dangling-marker issue (severity `minor`). -/
def danglingIssue : PreflightIssue :=
  ⟨"dangling-marker", "Dangling page break", "A page-break marker has no adjacent content."⟩

/-- Nominal page-size target used by the oversized-page policy threshold
(the soft limit the editor uses). -/
def pageSizeTarget : Int := 1800

/-- Modelled from the spec: `analyzeDocument(buffer)` of `lib/preflight.ts`.
Runs the structure check (minor), the oversized-segment check (major, policy
threshold 2x the nominal page-size target) and the dangling-marker check
(minor); the catalogue-readiness hint is rendered by the host UI outside the
preflight core and contributes no issue.  The severity is the maximum rank of
the detected issues. -/
def analyzeDocument (buffer : String) : PreflightReport :=
  let found : List (Severity × PreflightIssue) :=
    (if !(trimChars buffer.data).isEmpty && !hasBlockStructure buffer.data then
      [(Severity.minor, structureIssue)] else []) ++
    (if (splitContentIntoPages buffer pageSizeTarget).any
        (fun p => decide (3600 < p.length)) then
      [(Severity.major, oversizeIssue)] else []) ++
    (if hasDanglingMarker buffer.data then [(Severity.minor, danglingIssue)] else [])
  ⟨found.foldr (fun x acc => maxSev x.1 acc) Severity.none, found.map (fun x => x.2)⟩

/-! ## markdown.ts and SettingsPanel.tsx helpers (translated from source) -/

/-- ASCII lower-casing of a text, the canonical comparison form for the
case-insensitive regex test (the `i` flag canonicalizes only ASCII letters for
these ASCII-only patterns). -/
def lowerData (l : List Char) : List Char := l.map Char.toLower

/-- Translated from `src/app/lib/markdown.ts`: the test of the regex
`/^(blob:|data:|https?:|mailto:|tel:|\/|\.\/|\.\.\/|#)/i` against the trimmed
url.  `https?:` is the literal `http`, an optional `s`, then `:`. -/
def urlSchemeTest (t : List Char) : Bool :=
  "blob:".data.isPrefixOf (lowerData t) ||
  "data:".data.isPrefixOf (lowerData t) ||
  ("http".data.isPrefixOf (lowerData t) &&
    (":".data.isPrefixOf ((lowerData t).drop "http".data.length) ||
     "s:".data.isPrefixOf ((lowerData t).drop "http".data.length))) ||
  "mailto:".data.isPrefixOf (lowerData t) ||
  "tel:".data.isPrefixOf (lowerData t) ||
  "/".data.isPrefixOf (lowerData t) ||
  "./".data.isPrefixOf (lowerData t) ||
  "../".data.isPrefixOf (lowerData t) ||
  "#".data.isPrefixOf (lowerData t)

/-- Translated from `src/app/lib/markdown.ts` (`markdownUrlTransform`): trim
the url (`??`-defaulting a null-ish argument to the empty string), return the
empty string when nothing remains, return the trimmed url when the safe-scheme
regex matches, and the empty string otherwise. -/
def markdownUrlTransform (url : Option String) : String :=
  if (trimChars (url.getD "").data).isEmpty then ""
  else if urlSchemeTest (trimChars (url.getD "").data) then
    String.mk (trimChars (url.getD "").data)
  else ""

/-- The prefix list exactly as the claim words it: blob:, data:, http:,
https:, mailto:, tel:, /, ./, ../, #, compared case-insensitively. -/
def claimUrlAllowed (t : List Char) : Bool :=
  (["blob:", "data:", "http:", "https:", "mailto:", "tel:", "/", "./", "../",
    "#"] : List String).any (fun p => p.data.isPrefixOf (lowerData t))

/-- One stage of `value.replace(/x/g, rep)` for a single-character pattern:
every occurrence of `x` is replaced by `rep`, all other characters kept. -/
def replaceChar (x : Char) (rep : List Char) (l : List Char) : List Char :=
  (l.map (fun c => if c = x then rep else [c])).flatten

/-- Translated from `SettingsPanel.tsx` (`escapeHtml`): the five sequential
global replacements `& < > " '` → `&amp; &lt; &gt; &quot; &#39;`. -/
def escapeHtml (value : String) : String :=
  String.mk (replaceChar '\'' "&#39;".data
    (replaceChar '"' "&quot;".data
      (replaceChar '>' "&gt;".data
        (replaceChar '<' "&lt;".data
          (replaceChar '&' "&amp;".data value.data)))))

/-- Translated from `SettingsPanel.tsx` (`openPdfPrintPreview`): the document
body interpolated into the print-preview HTML — the trimmed content, or the
fallback text when empty, passed through `escapeHtml`. -/
def pdfEscapedBody (content : String) : String :=
  if (trimChars content.data).isEmpty then escapeHtml "No content available."
  else escapeHtml (String.mk (trimChars content.data))

/-! ## Base64url share codec (translated from SettingsPanel.tsx) -/

/-- UTF-8 encoding of one Unicode scalar value, with the byte arithmetic
written with division and remainder (the model of `TextEncoder`). -/
def utf8EncodeChar (c : Char) : List Nat :=
  if c.toNat < 128 then [c.toNat]
  else if c.toNat < 2048 then [192 + c.toNat / 64, 128 + c.toNat % 64]
  else if c.toNat < 65536 then
    [224 + c.toNat / 4096, 128 + c.toNat / 64 % 64, 128 + c.toNat % 64]
  else
    [240 + c.toNat / 262144, 128 + c.toNat / 4096 % 64, 128 + c.toNat / 64 % 64,
      128 + c.toNat % 64]

/-- UTF-8 encoding of a text. -/
def utf8Encode (s : List Char) : List Nat := (s.map utf8EncodeChar).flatten

/-- The replacement character U+FFFD. -/
def replChar : Char := Char.ofNat 65533

/-- One decoding step of UTF-8 (the model of `TextDecoder` on one scalar):
given the first byte and the remaining bytes, the decoded character and how
many extra bytes (beyond the first) were consumed.  Malformed input yields
U+FFFD and consumes a single byte. -/
def utf8Step (b : Nat) (rest : List Nat) : Char × Nat :=
  if b < 128 then (Char.ofNat b, 0)
  else if 194 ≤ b ∧ b ≤ 223 then
    match rest with
    | b2 :: _ =>
      if 128 ≤ b2 ∧ b2 < 192 then (Char.ofNat ((b - 192) * 64 + (b2 - 128)), 1)
      else (replChar, 0)
    | [] => (replChar, 0)
  else if 224 ≤ b ∧ b ≤ 239 then
    match rest with
    | b2 :: b3 :: _ =>
      if (128 ≤ b2 ∧ b2 < 192) ∧ (128 ≤ b3 ∧ b3 < 192) ∧
          (b = 224 → 160 ≤ b2) ∧ (b = 237 → b2 < 160) then
        (Char.ofNat ((b - 224) * 4096 + (b2 - 128) * 64 + (b3 - 128)), 2)
      else (replChar, 0)
    | _ => (replChar, 0)
  else if 240 ≤ b ∧ b ≤ 244 then
    match rest with
    | b2 :: b3 :: b4 :: _ =>
      if (128 ≤ b2 ∧ b2 < 192) ∧ (128 ≤ b3 ∧ b3 < 192) ∧
          (128 ≤ b4 ∧ b4 < 192) ∧ (b = 240 → 144 ≤ b2) ∧
          (b = 244 → b2 < 144) then
        (Char.ofNat ((b - 240) * 262144 + (b2 - 128) * 4096 + (b3 - 128) * 64 +
          (b4 - 128)), 3)
      else (replChar, 0)
    | _ => (replChar, 0)
  else (replChar, 0)

/-- UTF-8 decoding (the model of `TextDecoder`): well-formed sequences decode
to their scalar values, malformed bytes to U+FFFD. -/
def utf8Decode : List Nat → List Char
  | [] => []
  | b :: rest =>
    (utf8Step b rest).1 :: utf8Decode (rest.drop (utf8Step b rest).2)
termination_by l => l.length
decreasing_by simp only [List.length_drop, List.length_cons]; omega

/-- The standard base64 alphabet. -/
def b64Alphabet : List Char :=
  "ABCDEFGHIJKLMNOPQRSTUVWXYZabcdefghijklmnopqrstuvwxyz0123456789+/".data

/-- Character for a sextet (the model of `btoa`'s alphabet). -/
def b64char (n : Nat) : Char := b64Alphabet.getD n 'A'

/-- Sextet of an alphabet character (the model of `atob`'s inverse lookup). -/
def b64val (c : Char) : Nat := b64Alphabet.indexOf c

/-- Standard base64 with `=` padding on byte triples (the model of `btoa`
applied to the binary string of the bytes). -/
def b64encodeBytes : List Nat → List Char
  | [] => []
  | [a] => [b64char (a / 4), b64char (a % 4 * 16), '=', '=']
  | [a, b] =>
    [b64char (a / 4), b64char (a % 4 * 16 + b / 16), b64char (b % 16 * 4), '=']
  | a :: b :: c :: rest =>
    b64char (a / 4) :: b64char (a % 4 * 16 + b / 16) ::
      b64char (b % 16 * 4 + c / 64) :: b64char (c % 64) :: b64encodeBytes rest

/-- Base64 decoding on padded quadruples (the model of `atob` plus
`charCodeAt`). -/
def b64decodeChars : List Char → List Nat
  | c1 :: c2 :: c3 :: c4 :: rest =>
    if c3 = '=' then [b64val c1 * 4 + b64val c2 / 16]
    else if c4 = '=' then
      [b64val c1 * 4 + b64val c2 / 16, b64val c2 % 16 * 16 + b64val c3 / 4]
    else
      (b64val c1 * 4 + b64val c2 / 16) :: (b64val c2 % 16 * 16 + b64val c3 / 4) ::
        (b64val c3 % 4 * 64 + b64val c4) :: b64decodeChars rest
  | _ => []

/-- The url-safe replacement on one character: `+` becomes `-`, `/` becomes
`_`. -/
def urlSafeChar (c : Char) : Char :=
  if c = '+' then '-' else if c = '/' then '_' else c

/-- The inverse url-safe replacement on one character: `-` becomes `+`, `_`
becomes `/`. -/
def urlStdChar (c : Char) : Char :=
  if c = '-' then '+' else if c = '_' then '/' else c

/-- Remove the trailing `=` padding run. -/
def stripEq (l : List Char) : List Char :=
  (l.reverse.dropWhile (fun c => c = '=')).reverse

/-- Restore the padding: `'='.repeat((4 - length % 4) % 4)` appended. -/
def padEq (l : List Char) : List Char :=
  l ++ List.replicate ((4 - l.length % 4) % 4) '='

/-- Translated from `SettingsPanel.tsx` (`encodeBase64Url`): UTF-8 encode,
base64 via `btoa`, url-safe replacements, strip the padding. -/
def encodeBase64Url (value : String) : String :=
  String.mk (stripEq ((b64encodeBytes (utf8Encode value.data)).map urlSafeChar))

/-- Translated from `SettingsPanel.tsx` (`decodeBase64Url`): undo the url-safe
replacements, restore the padding, `atob`, decode UTF-8. -/
def decodeBase64Url (value : String) : String :=
  String.mk (utf8Decode (b64decodeChars (padEq (value.data.map urlStdChar))))


/-! ## Basic lemmas about trimming and joining -/

theorem head_dropWhile_not {p : α → Bool} {l : List α} {c : α}
    (h : (l.dropWhile p).head? = some c) : p c = false := by
  induction l with
  | nil => simp [List.dropWhile] at h
  | cons a t ih =>
    rw [List.dropWhile] at h
    by_cases hp : p a
    · exact ih (by simpa [hp] using h)
    · simp only [Bool.not_eq_true] at hp
      simp [hp] at h
      subst h
      exact hp

theorem dropWhile_eq_self_of_head {p : α → Bool} {l : List α}
    (h : ∀ c, l.head? = some c → p c = false) : l.dropWhile p = l := by
  cases l with
  | nil => rfl
  | cons a t => rw [List.dropWhile, h a rfl]

theorem trimChars_nil : trimChars [] = [] := rfl

theorem trimChars_length_le (l : List Char) : (trimChars l).length ≤ l.length := by
  unfold trimChars
  have h1 := (List.dropWhile_suffix (l := l) wsChar).length_le
  have h2 := (List.dropWhile_suffix (l := (l.dropWhile wsChar).reverse) wsChar).length_le
  simp only [List.length_reverse] at *
  omega

theorem trimChars_head {l : List Char} {c : Char}
    (h : (trimChars l).head? = some c) : wsChar c = false := by
  unfold trimChars at h
  rw [List.head?_reverse] at h
  obtain ⟨s, hs⟩ := List.dropWhile_suffix (l := (l.dropWhile wsChar).reverse) wsChar
  have hne : List.dropWhile wsChar (l.dropWhile wsChar).reverse ≠ [] := by
    intro h0
    rw [h0] at h
    simp at h
  have h2 : (l.dropWhile wsChar).reverse.getLast? = some c := by
    rw [← hs, List.getLast?_append, h]
    rfl
  rw [List.getLast?_reverse] at h2
  exact head_dropWhile_not h2

theorem trimChars_getLast {l : List Char} {c : Char}
    (h : (trimChars l).getLast? = some c) : wsChar c = false := by
  unfold trimChars at h
  rw [List.getLast?_reverse] at h
  exact head_dropWhile_not h

theorem trimChars_eq_self {l : List Char}
    (h1 : ∀ c, l.head? = some c → wsChar c = false)
    (h2 : ∀ c, l.getLast? = some c → wsChar c = false) : trimChars l = l := by
  unfold trimChars
  rw [dropWhile_eq_self_of_head h1]
  rw [dropWhile_eq_self_of_head (fun c hc => h2 c (by rwa [List.head?_reverse] at hc))]
  exact List.reverse_reverse l

theorem trimChars_idem (l : List Char) : trimChars (trimChars l) = trimChars l :=
  trimChars_eq_self (fun _ hc => trimChars_head hc) (fun _ hc => trimChars_getLast hc)

theorem joinPages_cons {p : List Char} {ps : List (List Char)} (h : ps ≠ []) :
    joinPages (p :: ps) = p ++ '\n' :: '\n' :: joinPages ps := by
  cases ps with
  | nil => exact absurd rfl h
  | cons q t => rfl

theorem joinPages_append {a b : List (List Char)} (ha : a ≠ []) (hb : b ≠ []) :
    joinPages (a ++ b) = joinPages a ++ '\n' :: '\n' :: joinPages b := by
  induction a with
  | nil => exact absurd rfl ha
  | cons x a ih =>
    cases a with
    | nil =>
      simp only [List.singleton_append]
      rw [joinPages_cons hb]
      rfl
    | cons y a' =>
      rw [List.cons_append, joinPages_cons (by simp), joinPages_cons (by simp),
        ih (by simp)]
      simp

theorem joinPages_concat {a : List (List Char)} {p : List Char} (ha : a ≠ []) :
    joinPages (a ++ [p]) = joinPages a ++ '\n' :: '\n' :: p :=
  joinPages_append ha (by simp)

theorem emitPages_length_pos (pages : List (List Char)) : 1 ≤ (emitPages pages).length := by
  unfold emitPages
  split
  · simp
  · rename_i h
    simp only [List.length_map]
    cases pages
    · simp at h
    · simp

theorem mem_paragraphsOf_trim {seg p : List Char} (h : p ∈ paragraphsOf seg) :
    trimChars p = p ∧ p ≠ [] := by
  unfold paragraphsOf at h
  rw [List.mem_filter] at h
  obtain ⟨hm, hne⟩ := h
  rw [List.mem_map] at hm
  obtain ⟨raw, _, rfl⟩ := hm
  exact ⟨trimChars_idem raw, by simpa using hne⟩

theorem greedyGroups_singleton_start {limit : Int} (hlim : limit ≤ 0) :
    ∀ (ps : List (List Char)) (p : List Char),
      greedyGroups limit ps [p] = [p] :: ps.map (fun q => [q]) := by
  intro ps
  induction ps with
  | nil => intro p; simp [greedyGroups]
  | cons q t ih =>
    intro p
    simp only [greedyGroups]
    rw [if_neg (by simp)]
    have h2 : ¬ (((joinPages [p]).length : Int) + 2 + (q.length : Int) ≤ limit) := by
      have hj : joinPages [p] = p := rfl
      rw [hj]
      have hn : (0:Int) ≤ (p.length : Int) := Int.natCast_nonneg _
      have hq : (0:Int) ≤ (q.length : Int) := Int.natCast_nonneg _
      omega
    rw [if_neg h2, ih]
    simp

theorem greedyGroups_le_zero {limit : Int} (hlim : limit ≤ 0) (ps : List (List Char)) :
    greedyGroups limit ps [] = ps.map (fun q => [q]) := by
  cases ps with
  | nil => rfl
  | cons p t =>
    simp only [greedyGroups]
    rw [if_pos (by simp), greedyGroups_singleton_start hlim]
    simp

/-! ## Claim theorems for the paginator (C3, C4, C6) -/

/-- C3: an explicit page-break marker always forces a page boundary regardless
of the soft limit: on the buffer `"A\n\n<MARKER>\n\nB"` with soft limit 1000
the paginator returns exactly the two pages `"A"` and `"B"`, and the marker
token appears in no output page. -/
theorem C3_marker_forces_break :
    splitContentIntoPages "A\n\n[PAGE_BREAK]\n\nB" 1000 = ["A", "B"] ∧
    ∀ p ∈ splitContentIntoPages "A\n\n[PAGE_BREAK]\n\nB" 1000,
      containsTok p.data = false := by decide

/-- C4: for every buffer and positive soft limit the paginator returns at
least one page, and the empty buffer yields the single empty-string page. -/
theorem C4_at_least_one_page (s : String) (limit : Int) (_h : 0 < limit) :
    1 ≤ (splitContentIntoPages s limit).length ∧
    splitContentIntoPages "" limit = [""] :=
  ⟨emitPages_length_pos _, rfl⟩

/-- Witness for C4 at `s = "x"`, `limit = 7`. -/
theorem C4_at_least_one_page_witness :
    0 < (7:Int) ∧ (1 ≤ (splitContentIntoPages "x" 7).length ∧
      splitContentIntoPages "" 7 = [""]) :=
  ⟨by decide, C4_at_least_one_page "x" 7 (by decide)⟩

/-- C6: the paginator is a total function (every input has a value), and a
non-positive soft limit degrades to one paragraph per page rather than
failing. -/
theorem C6_total_nonpositive_limit :
    (∀ (s : String) (limit : Int), ∃ r, splitContentIntoPages s limit = r) ∧
    ∀ (s : String) (limit : Int), limit ≤ 0 →
      splitContentIntoPages s limit =
        emitPages (((splitMarker s.data).map paragraphsOf).flatten) := by
  refine ⟨fun s limit => ⟨_, rfl⟩, fun s limit hlim => ?_⟩
  unfold splitContentIntoPages allPages
  congr 1
  apply congrArg List.flatten
  apply List.map_congr_left
  intro seg _
  rw [greedyGroups_le_zero hlim, List.map_map]
  have hid : ∀ p ∈ paragraphsOf seg, (pageOfGroup ∘ fun q => [q]) p = id p := by
    intro p hp
    show trimChars (joinPages [p]) = p
    have hj : joinPages [p] = p := rfl
    rw [hj]
    exact (mem_paragraphsOf_trim hp).1
  rw [List.map_congr_left hid, List.map_id]

theorem greedyGroups_budget {limit : Int} :
    ∀ (ps : List (List Char)) (cur : List (List Char)),
      (∀ p ∈ ps, (p.length : Int) ≤ limit) →
      ((joinPages cur).length : Int) ≤ limit →
      ∀ g ∈ greedyGroups limit ps cur, ((joinPages g).length : Int) ≤ limit := by
  intro ps
  induction ps with
  | nil =>
    intro cur _ hc g hg
    simp only [greedyGroups] at hg
    split at hg
    · simp at hg
    · simp only [List.mem_singleton] at hg
      subst hg
      exact hc
  | cons p t ih =>
    intro cur hp hc g hg
    have hp0 : (p.length : Int) ≤ limit := hp p (by simp)
    have hpt : ∀ q ∈ t, (q.length : Int) ≤ limit := fun q hq => hp q (by simp [hq])
    simp only [greedyGroups] at hg
    split at hg
    · exact ih [p] hpt (by simpa [joinPages] using hp0) g hg
    · rename_i hcur
      split at hg
      · rename_i hcond
        refine ih (cur ++ [p]) hpt ?_ g hg
        rw [joinPages_concat (by intro h0; rw [h0] at hcur; simp at hcur)]
        simp only [List.length_append, List.length_cons]
        push_cast
        omega
      · rcases List.mem_cons.mp hg with rfl | hg'
        · exact hc
        · exact ih [p] hpt (by simpa [joinPages] using hp0) g hg'

theorem mem_allPages {buffer : String} {limit : Int} {q : List Char}
    (h : q ∈ allPages buffer limit) :
    ∃ seg ∈ splitMarker buffer.data,
      ∃ g ∈ greedyGroups limit (paragraphsOf seg) [], q = pageOfGroup g := by
  unfold allPages at h
  rw [List.mem_flatten] at h
  obtain ⟨pl, hpl, hq⟩ := h
  rw [List.mem_map] at hpl
  obtain ⟨seg, hseg, rfl⟩ := hpl
  rw [List.mem_map] at hq
  obtain ⟨g, hgg, rfl⟩ := hq
  exact ⟨seg, hseg, g, hgg, rfl⟩

theorem paragraphsOf_length_le {seg : List Char} {limit : Int}
    (h : ∀ p ∈ rawParagraphs seg, (p.length : Int) ≤ limit) :
    ∀ p ∈ paragraphsOf seg, (p.length : Int) ≤ limit := by
  intro p hp
  unfold paragraphsOf at hp
  rw [List.mem_filter] at hp
  obtain ⟨hm, _⟩ := hp
  rw [List.mem_map] at hm
  obtain ⟨raw, hraw, rfl⟩ := hm
  calc ((trimChars raw).length : Int) ≤ (raw.length : Int) := by
        exact_mod_cast trimChars_length_le raw
    _ ≤ limit := h raw hraw

/-- C5: the soft budget is respected when possible — if every paragraph
(trimmed maximal run of text separated by blank lines) of every
marker-delimited segment fits in the limit, then every emitted page fits
in the limit. -/
theorem C5_budget_respected (s : String) (limit : Int) (h0 : 0 < limit)
    (hp : ∀ seg ∈ splitMarker s.data, ∀ p ∈ paragraphsOf seg,
      (p.length : Int) ≤ limit) :
    ∀ page ∈ splitContentIntoPages s limit, (page.length : Int) ≤ limit := by
  intro page hpage
  unfold splitContentIntoPages emitPages at hpage
  split at hpage
  · simp only [List.mem_singleton] at hpage
    subst hpage
    show ((0:Nat) : Int) ≤ limit
    omega
  · rw [List.mem_map] at hpage
    obtain ⟨q, hq, rfl⟩ := hpage
    obtain ⟨seg, hseg, g, hg, rfl⟩ := mem_allPages hq
    have hjoin := greedyGroups_budget (paragraphsOf seg) []
      (hp seg hseg) (by simp [joinPages]; omega) g hg
    have hlen : (pageOfGroup g).length ≤ (joinPages g).length := trimChars_length_le _
    calc ((String.mk (pageOfGroup g)).length : Int)
        = ((pageOfGroup g).length : Int) := rfl
      _ ≤ ((joinPages g).length : Int) := by exact_mod_cast hlen
      _ ≤ limit := hjoin

/-- Witness for C5 at `s = "aa\n\nbb"`, `limit = 2`: both paragraphs have
length exactly the limit, and both emitted pages fit. -/
theorem C5_budget_respected_witness :
    (0 < (2:Int)) ∧
    (∀ seg ∈ splitMarker "aa\n\nbb".data, ∀ p ∈ paragraphsOf seg,
      (p.length : Int) ≤ 2) ∧
    ∀ page ∈ splitContentIntoPages "aa\n\nbb" 2, (page.length : Int) ≤ 2 :=
  ⟨by decide, by decide, C5_budget_respected "aa\n\nbb" 2 (by decide) (by decide)⟩

/-- Witness for C6 at `s = "aa\n\nbbbb"`, `limit = -3`. -/
theorem C6_total_nonpositive_limit_witness :
    splitContentIntoPages "aa\n\nbbbb" (-3) =
      emitPages (((splitMarker "aa\n\nbbbb".data).map paragraphsOf).flatten) :=
  C6_total_nonpositive_limit.2 "aa\n\nbbbb" (-3) (by decide)

/-! ## The paragraph scanner on joins of good paragraphs (towards C2) -/

theorem splitParasAux_split {c : Char} {rest acc : List Char}
    (h : c = '\n' ∧ rest.head? = some '\n') :
    splitParasAux (c :: rest) acc = acc.reverse :: splitParasAux rest [] := by
  simp only [splitParasAux, if_pos h]

theorem splitParasAux_cons {c : Char} {rest acc : List Char}
    (h : ¬(c = '\n' ∧ rest.head? = some '\n')) :
    splitParasAux (c :: rest) acc = splitParasAux rest (c :: acc) := by
  simp only [splitParasAux, if_neg h]

theorem hasDbl_nil : hasDbl [] = false := rfl

theorem hasDbl_single (c : Char) : hasDbl [c] = false := rfl

theorem hasDbl_cons_cons {c d : Char} {t : List Char} :
    hasDbl (c :: d :: t) = ((c = '\n' && d = '\n') || hasDbl (d :: t)) := rfl

theorem splitParasAux_split_nl {J acc : List Char} :
    splitParasAux ('\n' :: '\n' :: J) acc = acc.reverse :: splitParasAux ('\n' :: J) [] :=
  splitParasAux_split ⟨rfl, rfl⟩

theorem splitParasAux_through :
    ∀ (p l acc : List Char), hasDbl p = false →
      ¬(p.getLast? = some '\n' ∧ l.head? = some '\n') →
      splitParasAux (p ++ l) acc = splitParasAux l (p.reverse ++ acc) := by
  intro p
  induction p with
  | nil => intro l acc _ _; simp
  | cons c p' ih =>
    intro l acc hdbl hlast
    cases p' with
    | nil =>
      rw [List.singleton_append, splitParasAux_cons, List.reverse_singleton,
        List.singleton_append]
      intro ⟨hc, hl⟩
      exact hlast ⟨by simp [hc], hl⟩
    | cons d p'' =>
      rw [List.cons_append, splitParasAux_cons]
      · rw [ih l (c :: acc) ?_ ?_]
        · simp
        · rw [hasDbl_cons_cons] at hdbl
          simp only [Bool.or_eq_false_iff] at hdbl
          exact hdbl.2
        · intro ⟨hg, hl⟩
          exact hlast ⟨by rw [List.getLast?_cons_cons]; exact hg, hl⟩
      · intro ⟨hc, hd⟩
        rw [hasDbl_cons_cons] at hdbl
        simp only [Bool.or_eq_false_iff] at hdbl
        have := hdbl.1
        simp only [List.cons_append, List.head?_cons, Option.some.injEq] at hd
        simp [hc, hd] at this

theorem hasDbl_concat {X : List Char} {c : Char} :
    hasDbl (X ++ [c]) = true ↔
      hasDbl X = true ∨ (X.getLast? = some '\n' ∧ c = '\n') := by
  induction X with
  | nil => simp [hasDbl]
  | cons a t ih =>
    cases t with
    | nil =>
      simp only [List.singleton_append, hasDbl_cons_cons]
      simp [hasDbl]
    | cons b t' =>
      rw [List.cons_append, hasDbl_cons_cons, List.cons_append] at *
      rw [hasDbl_cons_cons]
      simp only [Bool.or_eq_true, ih, List.getLast?_cons_cons]
      tauto

theorem splitParasAux_noDbl :
    ∀ (l acc : List Char), hasDbl acc.reverse = false →
      (acc.head? = some '\n' → l.head? ≠ some '\n') →
      ∀ p ∈ splitParasAux l acc, hasDbl p = false := by
  intro l
  induction l with
  | nil =>
    intro acc h1 _ p hp
    simp only [splitParasAux, List.mem_singleton] at hp
    subst hp
    exact h1
  | cons c rest ih =>
    intro acc h1 h2 p hp
    by_cases hc : c = '\n' ∧ rest.head? = some '\n'
    · rw [splitParasAux_split hc] at hp
      rcases List.mem_cons.mp hp with rfl | hp'
      · exact h1
      · exact ih [] (by simp [hasDbl]) (by simp) p hp'
    · rw [splitParasAux_cons hc] at hp
      refine ih (c :: acc) ?_ ?_ p hp
      · simp only [List.reverse_cons]
        rw [Bool.eq_false_iff]
        intro habs
        rcases hasDbl_concat.mp habs with hX | ⟨hlastX, hcnl⟩
        · rw [h1] at hX; exact Bool.false_ne_true hX
        · rw [List.getLast?_reverse] at hlastX
          exact h2 hlastX (by simp [hcnl])
      · intro hch
        simp only [List.head?_cons, Option.some.injEq] at hch
        intro hrest
        exact hc ⟨hch, hrest⟩

theorem trimChars_ws_front {w p : List Char} (h : ∀ c ∈ w, wsChar c = true) :
    trimChars (w ++ p) = trimChars p := by
  unfold trimChars
  rw [List.dropWhile_append_of_pos h]

theorem goodPara_head {p : List Char} (hp : goodPara p) {c : Char}
    (h : p.head? = some c) : wsChar c = false := by
  rw [← hp.1] at h
  exact trimChars_head h

theorem goodPara_getLast {p : List Char} (hp : goodPara p) {c : Char}
    (h : p.getLast? = some c) : wsChar c = false := by
  rw [← hp.1] at h
  exact trimChars_getLast h

theorem joinPages_ne_nil {ps : List (List Char)} (hne : ps ≠ [])
    (h0 : ∀ p ∈ ps, p ≠ []) : joinPages ps ≠ [] := by
  cases ps with
  | nil => exact absurd rfl hne
  | cons q t =>
    have hq := h0 q (by simp)
    cases t with
    | nil => simpa [joinPages] using hq
    | cons r t' =>
      rw [joinPages_cons (by simp)]
      cases q with
      | nil => exact absurd rfl hq
      | cons a q' => simp

theorem joinPages_head_ne_nl {ps : List (List Char)} (hne : ps ≠ [])
    (hg : ∀ p ∈ ps, goodPara p) : (joinPages ps).head? ≠ some '\n' := by
  cases ps with
  | nil => exact absurd rfl hne
  | cons q t =>
    have hq : goodPara q := hg q (by simp)
    obtain ⟨a, q', rfl⟩ : ∃ a q', q = a :: q' := by
      cases q with
      | nil => exact absurd rfl hq.2.1
      | cons a q' => exact ⟨a, q', rfl⟩
    intro habs
    have ha : a = '\n' := by
      cases t with
      | nil => simpa [joinPages] using habs
      | cons r t' =>
        rw [joinPages_cons (by simp)] at habs
        simpa using habs
    have hws : wsChar a = false := goodPara_head hq rfl
    rw [ha] at hws
    exact absurd hws (by decide)

theorem joinPages_getLast_ws :
    ∀ (ps : List (List Char)), ps ≠ [] → (∀ p ∈ ps, goodPara p) →
      ∀ c : Char, (joinPages ps).getLast? = some c → wsChar c = false := by
  intro ps
  induction ps with
  | nil => intro h; exact absurd rfl h
  | cons q t ih =>
    intro _ hg c h
    cases t with
    | nil =>
      have hj : joinPages [q] = q := rfl
      rw [hj] at h
      exact goodPara_getLast (hg q (by simp)) h
    | cons r t' =>
      have hJne : joinPages (r :: t') ≠ [] :=
        joinPages_ne_nil (by simp) (fun p hp => (hg p (by simp [hp])).2.1)
      obtain ⟨j, J', hJ⟩ : ∃ j J', joinPages (r :: t') = j :: J' := by
        rcases hJl : joinPages (r :: t') with _ | ⟨j, J'⟩
        · exact absurd hJl hJne
        · exact ⟨j, J', rfl⟩
      rw [joinPages_cons (by simp), List.getLast?_append, hJ] at h
      simp only [List.getLast?_cons_cons] at h
      rw [← hJ] at h
      obtain ⟨d, hd⟩ : ∃ d, (joinPages (r :: t')).getLast? = some d := by
        rw [hJ]
        cases hJl' : (j :: J').getLast? with
        | none => simp at hJl'
        | some d => exact ⟨d, rfl⟩
      rw [hd] at h
      simp only [Option.or_some, Option.some.injEq] at h
      subst h
      exact ih (by simp) (fun p hp => hg p (by simp [hp])) d hd

theorem paragraphsOf_joinPages_aux :
    ∀ (ps : List (List Char)) (acc : List Char), ps ≠ [] →
      (∀ p ∈ ps, goodPara p) → (∀ c ∈ acc, wsChar c = true) →
      ((splitParasAux (joinPages ps) acc).map trimChars).filter
        (fun p => !p.isEmpty) = ps := by
  intro ps
  induction ps with
  | nil => intro acc h; exact absurd rfl h
  | cons q t ih =>
    intro acc _ hg hacc
    have hq : goodPara q := hg q (by simp)
    have hkeep : (!q.isEmpty) = true := by
      cases hql : q with
      | nil => exact absurd hql hq.2.1
      | cons a q' => simp
    cases t with
    | nil =>
      have hj : joinPages [q] = q := rfl
      rw [hj, ← List.append_nil q, splitParasAux_through q [] acc hq.2.2 (by simp)]
      simp only [splitParasAux, List.map_cons, List.map_nil, List.reverse_append,
        List.reverse_reverse]
      rw [trimChars_ws_front (fun c hc => hacc c (by simpa using hc)), hq.1]
      simp [hkeep]
    | cons r t' =>
      rw [joinPages_cons (by simp),
        splitParasAux_through q ('\n' :: '\n' :: joinPages (r :: t')) acc hq.2.2
          (by intro ⟨hgl, _⟩; exact absurd (goodPara_getLast hq hgl) (by decide)),
        splitParasAux_split_nl]
      have hJhead : (joinPages (r :: t')).head? ≠ some '\n' :=
        joinPages_head_ne_nl (by simp) (fun p hp => hg p (by simp [hp]))
      rw [splitParasAux_cons (by intro ⟨_, hh⟩; exact hJhead hh)]
      simp only [List.map_cons, List.reverse_append, List.reverse_reverse]
      rw [trimChars_ws_front (fun c hc => hacc c (by simpa using hc)), hq.1]
      rw [List.filter_cons, if_pos hkeep]
      rw [ih ['\n'] (by simp) (fun p hp => hg p (by simp [hp]))
        (by intro c hc; simp at hc; subst hc; decide)]

theorem paragraphsOf_joinPages {ps : List (List Char)} (hne : ps ≠ [])
    (hg : ∀ p ∈ ps, goodPara p) : paragraphsOf (joinPages ps) = ps := by
  unfold paragraphsOf rawParagraphs
  exact paragraphsOf_joinPages_aux ps [] hne hg (by simp)

theorem trimChars_within (l : List Char) : trimChars l <:+: l := by
  unfold trimChars
  have h1 : l.dropWhile wsChar <:+ l := List.dropWhile_suffix wsChar
  have h2 : (l.dropWhile wsChar).reverse.dropWhile wsChar <:+
      (l.dropWhile wsChar).reverse := List.dropWhile_suffix wsChar
  have h3 : ((l.dropWhile wsChar).reverse.dropWhile wsChar).reverse <+:
      l.dropWhile wsChar := by
    rw [← List.reverse_suffix]
    simpa using h2
  exact ( List.IsPrefix.isInfix h3).trans ( List.IsSuffix.isInfix h1)

theorem hasDbl_iff_sep : ∀ {l : List Char},
    hasDbl l = true ↔ ['\n', '\n'] <:+: l := by
  intro l
  induction l with
  | nil =>
    simp only [hasDbl]
    constructor
    · intro h; exact absurd h (by decide)
    · intro h
      have := h.length_le
      simp at this
  | cons c t ih =>
    cases t with
    | nil =>
      simp only [hasDbl]
      constructor
      · intro h; exact absurd h (by decide)
      · intro h
        have := h.length_le
        simp at this
    | cons d t' =>
      rw [hasDbl_cons_cons, List.infix_cons_iff]
      constructor
      · intro h
        rcases Bool.or_eq_true_iff.mp h with hpair | htl
        · left
          have hc : c = '\n' := by
            have := Bool.and_eq_true_iff.mp hpair
            exact of_decide_eq_true this.1
          have hd : d = '\n' := by
            have := Bool.and_eq_true_iff.mp hpair
            exact of_decide_eq_true this.2
          subst hc; subst hd
          exact ⟨t', rfl⟩
        · right
          exact ih.mp htl
      · intro h
        rcases h with hpre | htl
        · rcases hpre with ⟨u, hu⟩
          simp only [List.cons_append, List.cons.injEq] at hu
          obtain ⟨hc, hd, _⟩ := hu
          apply Bool.or_eq_true_iff.mpr
          left
          rw [← hc, ← hd]
          simp
        · exact Bool.or_eq_true_iff.mpr (Or.inr (ih.mpr htl))

theorem hasDbl_of_within {t l : List Char} (h : t <:+: l)
    (ht : hasDbl t = true) : hasDbl l = true :=
  hasDbl_iff_sep.mpr ((hasDbl_iff_sep.mp ht).trans h)

theorem paragraphsOf_good {seg : List Char} :
    ∀ p ∈ paragraphsOf seg, goodPara p := by
  intro p hp
  obtain ⟨ht, hne⟩ := mem_paragraphsOf_trim hp
  refine ⟨ht, hne, ?_⟩
  unfold paragraphsOf at hp
  rw [List.mem_filter] at hp
  obtain ⟨hm, _⟩ := hp
  obtain ⟨raw, hraw, rfl⟩ := List.mem_map.mp hm
  unfold rawParagraphs at hraw
  have hrawD : hasDbl raw = false :=
    splitParasAux_noDbl seg [] (by simp [hasDbl]) (by simp) raw hraw
  rw [Bool.eq_false_iff]
  intro habs
  have := hasDbl_of_within (trimChars_within raw) habs
  rw [hrawD] at this
  exact Bool.false_ne_true this

theorem joinPages_head_ws {ps : List (List Char)} (hne : ps ≠ [])
    (hg : ∀ p ∈ ps, goodPara p) {c : Char}
    (h : (joinPages ps).head? = some c) : wsChar c = false := by
  cases ps with
  | nil => exact absurd rfl hne
  | cons q t =>
    have hq : goodPara q := hg q (by simp)
    obtain ⟨a, q', rfl⟩ : ∃ a q', q = a :: q' := by
      cases q with
      | nil => exact absurd rfl hq.2.1
      | cons a q' => exact ⟨a, q', rfl⟩
    have hca : c = a := by
      cases t with
      | nil =>
        have hj : joinPages [a :: q'] = a :: q' := rfl
        rw [hj] at h
        simpa using h.symm
      | cons r t' =>
        rw [joinPages_cons (by simp)] at h
        simpa using h.symm
    subst hca
    exact goodPara_head hq rfl

/-! ## Structure of the greedy grouping (towards C2) -/

theorem greedyGroups_flatten {limit : Int} :
    ∀ (ps cur : List (List Char)), (greedyGroups limit ps cur).flatten = cur ++ ps := by
  intro ps
  induction ps with
  | nil =>
    intro cur
    simp only [greedyGroups]
    split
    · rename_i h
      simp only [List.isEmpty_iff] at h
      simp [h]
    · simp
  | cons p t ih =>
    intro cur
    simp only [greedyGroups]
    split
    · rename_i h
      simp only [List.isEmpty_iff] at h
      subst h
      rw [ih]
      simp
    · split
      · rw [ih]
        simp
      · rw [List.flatten_cons, ih]
        simp

theorem greedyGroups_mem_ne_nil {limit : Int} :
    ∀ (ps cur : List (List Char)), ∀ g ∈ greedyGroups limit ps cur, g ≠ [] := by
  intro ps
  induction ps with
  | nil =>
    intro cur g hg
    simp only [greedyGroups] at hg
    split at hg
    · simp at hg
    · rename_i h
      simp only [List.mem_singleton] at hg
      subst hg
      simpa [List.isEmpty_iff] using h
  | cons p t ih =>
    intro cur g hg
    simp only [greedyGroups] at hg
    split at hg
    · exact ih [p] g hg
    · rename_i hcur
      split at hg
      · exact ih (cur ++ [p]) g hg
      · rcases List.mem_cons.mp hg with rfl | hg'
        · simpa [List.isEmpty_iff] using hcur
        · exact ih [p] g hg'

theorem greedyGroups_ne_nil {limit : Int} :
    ∀ (ps cur : List (List Char)), cur ≠ [] → greedyGroups limit ps cur ≠ [] := by
  intro ps
  induction ps with
  | nil =>
    intro cur hc
    simp only [greedyGroups]
    rw [if_neg (by simpa [List.isEmpty_iff] using hc)]
    simp
  | cons p t ih =>
    intro cur hc
    simp only [greedyGroups]
    rw [if_neg (by simpa [List.isEmpty_iff] using hc)]
    split
    · exact ih (cur ++ [p]) (by simp)
    · simp

theorem flatten_ne_nil_of {gs : List (List (List Char))} (hne : gs ≠ [])
    (h0 : ∀ g ∈ gs, g ≠ []) : gs.flatten ≠ [] := by
  cases gs with
  | nil => exact absurd rfl hne
  | cons g t =>
    have := h0 g (by simp)
    cases g with
    | nil => exact absurd rfl this
    | cons x g' => simp

theorem joinPages_map_joinPages :
    ∀ (gs : List (List (List Char))), (∀ g ∈ gs, g ≠ []) →
      joinPages (gs.map joinPages) = joinPages gs.flatten := by
  intro gs
  induction gs with
  | nil => intro _; rfl
  | cons g t ih =>
    intro h0
    cases t with
    | nil =>
      simp only [List.map_cons, List.map_nil, List.flatten_cons, List.flatten_nil,
        List.append_nil]
      rfl
    | cons g2 t' =>
      rw [List.flatten_cons,
        joinPages_append (h0 g (by simp))
          (@flatten_ne_nil_of (g2 :: t') (by simp)
            (fun x hx => h0 x (by simp [hx]))),
        List.map_cons, joinPages_cons (by simp), ih (fun x hx => h0 x (by simp [hx]))]

/-! ## Splitting on the marker when there is no marker -/

theorem splitMarkerSkip_no_tok :
    ∀ (l acc : List Char), containsTok l = false →
      splitMarkerSkip l 0 acc = [acc.reverse ++ l] := by
  intro l
  induction l with
  | nil => intro acc _; simp [splitMarkerSkip]
  | cons c rest ih =>
    intro acc h
    have hsplit : MARKER.isPrefixOf (c :: rest) = false ∧ containsTok rest = false := by
      unfold containsTok at h
      rw [List.tails_cons, List.any_cons] at h
      simp only [Bool.or_eq_false_iff] at h
      exact ⟨h.1, h.2⟩
    simp only [splitMarkerSkip]
    rw [if_neg (by simp [hsplit.1]), ih (c :: acc) hsplit.2]
    simp

theorem splitMarker_no_tok {l : List Char} (h : containsTok l = false) :
    splitMarker l = [l] := by
  unfold splitMarker
  rw [splitMarkerSkip_no_tok l [] h]
  rfl

/-! ## C2: the round trip -/

/-- C2: for every buffer without the marker token and positive soft limit,
joining the pages back with a blank-line separator is content-equivalent to the
original buffer.  Content equivalence "up to collapsing runs of blank lines"
(and up to outer trimming, which pagination performs) is formalized as equality
of the trimmed non-empty paragraph sequences of the two texts
(`paragraphsOf`). -/
theorem C2_round_trip (s : String) (limit : Int) (_h0 : 0 < limit)
    (hm : containsTok s.data = false) :
    paragraphsOf (joinPages ((splitContentIntoPages s limit).map String.data)) =
      paragraphsOf s.data := by
  have hseg : splitMarker s.data = [s.data] := splitMarker_no_tok hm
  have hall : allPages s limit =
      (greedyGroups limit (paragraphsOf s.data) []).map pageOfGroup := by
    unfold allPages
    rw [hseg]
    simp
  rcases hpar : paragraphsOf s.data with _ | ⟨p0, pt⟩
  · have hnil : allPages s limit = [] := by
      rw [hall, hpar]
      rfl
    unfold splitContentIntoPages
    rw [hnil]
    rfl
  · have hgood : ∀ p ∈ paragraphsOf s.data, goodPara p := paragraphsOf_good
    have hgne : greedyGroups limit (paragraphsOf s.data) [] ≠ [] := by
      rw [hpar]
      simp only [greedyGroups]
      rw [if_pos (by simp)]
      exact greedyGroups_ne_nil pt [p0] (by simp)
    have hmem : ∀ g ∈ greedyGroups limit (paragraphsOf s.data) [], g ≠ [] :=
      greedyGroups_mem_ne_nil _ _
    have hflat : (greedyGroups limit (paragraphsOf s.data) []).flatten =
        paragraphsOf s.data := by
      rw [greedyGroups_flatten]
      simp
    have hgoodg : ∀ g ∈ greedyGroups limit (paragraphsOf s.data) [],
        ∀ p ∈ g, goodPara p := by
      intro g hg p hp
      apply hgood
      rw [← hflat]
      exact List.mem_flatten.mpr ⟨g, hg, hp⟩
    have hpog : (greedyGroups limit (paragraphsOf s.data) []).map pageOfGroup =
        (greedyGroups limit (paragraphsOf s.data) []).map joinPages := by
      apply List.map_congr_left
      intro g hg
      unfold pageOfGroup
      apply trimChars_eq_self
      · intro c hc
        exact joinPages_head_ws (hmem g hg) (hgoodg g hg) hc
      · intro c hc
        exact joinPages_getLast_ws g (hmem g hg) (hgoodg g hg) c hc
    have hXne : (greedyGroups limit (paragraphsOf s.data) []).map pageOfGroup ≠ [] := by
      simpa using hgne
    have hemit : (emitPages
        ((greedyGroups limit (paragraphsOf s.data) []).map pageOfGroup)).map String.data =
        (greedyGroups limit (paragraphsOf s.data) []).map pageOfGroup := by
      unfold emitPages
      rw [if_neg (by simpa [List.isEmpty_iff] using hXne), List.map_map]
      have : ∀ p ∈ (greedyGroups limit (paragraphsOf s.data) []).map pageOfGroup,
          (String.data ∘ fun q => String.mk q) p = id p := by
        intro p _
        rfl
      rw [List.map_congr_left this, List.map_id]
    unfold splitContentIntoPages
    rw [hall, hemit, hpog, joinPages_map_joinPages _ hmem, hflat,
      paragraphsOf_joinPages (by rw [hpar]; simp) hgood]
    exact hpar

/-! ## C1: no marker survives pagination, and editing never re-inserts it -/

theorem isPrefixOf_eq_true_iff {l₁ l₂ : List Char} :
    l₁.isPrefixOf l₂ = true ↔ l₁ <+: l₂ := by
  rw [ List.isPrefixOf_iff_prefix]

theorem prefix_append_cases {α : Type} {M a b : List α} (h : M <+: a ++ b) :
    M <+: a ∨ ∃ b₁, b₁ <+: b ∧ M = a ++ b₁ := by
  induction a generalizing M with
  | nil =>
    right
    exact ⟨M, by simpa using h, by simp⟩
  | cons c a' ih =>
    cases M with
    | nil => exact Or.inl List.nil_prefix
    | cons m M' =>
      rw [List.cons_append, List.cons_prefix_cons] at h
      obtain ⟨hmc, hM'⟩ := h
      rcases ih hM' with hA | ⟨b₁, hb₁, hMeq⟩
      · exact Or.inl (List.cons_prefix_cons.mpr ⟨hmc, hA⟩)
      · right
        exact ⟨b₁, hb₁, by rw [hmc, hMeq]; rfl⟩

theorem infix_append_cases {α : Type} {M a b : List α} (h : M <:+: a ++ b) :
    M <:+: a ∨ M <:+: b ∨
      ∃ a₂ b₁, a₂ ≠ [] ∧ b₁ ≠ [] ∧ a₂ <:+ a ∧ b₁ <+: b ∧ M = a₂ ++ b₁ := by
  induction a generalizing M with
  | nil =>
    right
    left
    simpa using h
  | cons c a' ih =>
    rw [List.cons_append, List.infix_cons_iff] at h
    rcases h with hpre | htl
    · cases M with
      | nil => exact Or.inl List.nil_infix
      | cons m M' =>
        rw [List.cons_prefix_cons] at hpre
        obtain ⟨hmc, hM'⟩ := hpre
        rcases prefix_append_cases hM' with hA | ⟨b₁, hb₁, hMeq⟩
        · exact Or.inl ( List.IsPrefix.isInfix (List.cons_prefix_cons.mpr ⟨hmc, hA⟩))
        · rcases b₁ with _ | ⟨x, b₁'⟩
          · left
            rw [List.append_nil] at hMeq
            subst hMeq
            exact List.IsPrefix.isInfix (List.cons_prefix_cons.mpr ⟨hmc, List.prefix_rfl⟩)
          · right
            right
            refine ⟨c :: a', x :: b₁', by simp, by simp, List.suffix_rfl, hb₁, ?_⟩
            rw [hmc, hMeq]
            rfl
    · rcases ih htl with hA | hB | ⟨a₂, b₁, h1, h2, h3, h4, h5⟩
      · exact Or.inl (List.infix_cons hA)
      · exact Or.inr (Or.inl hB)
      · exact Or.inr (Or.inr ⟨a₂, b₁, h1, h2, h3.trans (List.suffix_cons c a'), h4, h5⟩)

theorem within_cons_of_not_mem {M : List Char} {c : Char} {l : List Char}
    (hc : c ∉ M) (h : M <:+: c :: l) : M <:+: l := by
  obtain ⟨s, t, hst⟩ := h
  cases s with
  | nil =>
    cases M with
    | nil => exact List.nil_infix
    | cons m M' =>
      simp only [List.nil_append, List.cons_append, List.cons.injEq] at hst
      exact absurd (hst.1 ▸ List.mem_cons_self m M') hc
  | cons c' s' =>
    simp only [List.cons_append, List.cons.injEq] at hst
    exact ⟨s', t, hst.2⟩

theorem marker_no_nl : '\n' ∉ MARKER := by decide

theorem marker_ne_nil : MARKER ≠ [] := by decide

theorem not_within_append_sep {a b : List Char}
    (ha : ¬ MARKER <:+: a) (hb : ¬ MARKER <:+: b) :
    ¬ MARKER <:+: a ++ '\n' :: '\n' :: b := by
  intro h
  rcases infix_append_cases h with hA | hB | ⟨a₂, b₁, _, hb₁ne, _, hb₁, hMeq⟩
  · exact ha hA
  · exact hb (within_cons_of_not_mem marker_no_nl
      (within_cons_of_not_mem marker_no_nl hB))
  · have : '\n' ∈ b₁ := by
      cases b₁ with
      | nil => exact absurd rfl hb₁ne
      | cons x b₁' =>
        rw [List.cons_prefix_cons] at hb₁
        rw [hb₁.1]
        exact List.mem_cons_self _ _
    have hmem : '\n' ∈ MARKER := by
      rw [hMeq]
      exact List.mem_append.mpr (Or.inr this)
    exact marker_no_nl hmem

theorem joinPages_no_tok :
    ∀ (ps : List (List Char)), (∀ p ∈ ps, ¬ MARKER <:+: p) →
      ¬ MARKER <:+: joinPages ps := by
  intro ps
  induction ps with
  | nil =>
    intro _ h
    rw [show joinPages [] = [] from rfl, List.infix_nil] at h
    exact marker_ne_nil h
  | cons p t ih =>
    intro h0
    cases t with
    | nil => exact h0 p (by simp)
    | cons q t' =>
      rw [joinPages_cons (by simp)]
      exact not_within_append_sep (h0 p (by simp))
        (ih (fun x hx => h0 x (by simp [hx])))

theorem splitParasAux_within :
    ∀ (l acc : List Char), ∀ p ∈ splitParasAux l acc, p <:+: acc.reverse ++ l := by
  intro l
  induction l with
  | nil =>
    intro acc p hp
    simp only [splitParasAux, List.mem_singleton] at hp
    subst hp
    exact List.IsPrefix.isInfix (by simp)
  | cons c rest ih =>
    intro acc p hp
    by_cases hc : c = '\n' ∧ rest.head? = some '\n'
    · rw [splitParasAux_split hc] at hp
      rcases List.mem_cons.mp hp with rfl | hp'
      · exact List.IsPrefix.isInfix (List.prefix_append _ _)
      · have h1 := ih [] p hp'
        simp only [List.reverse_nil, List.nil_append] at h1
        refine h1.trans ( List.IsSuffix.isInfix ?_)
        exact (List.suffix_cons c rest).trans ⟨acc.reverse, rfl⟩
    · rw [splitParasAux_cons hc] at hp
      have h1 := ih (c :: acc) p hp
      rw [List.reverse_cons, List.append_assoc] at h1
      simpa using h1

theorem containsTok_iff {l : List Char} : containsTok l = true ↔ MARKER <:+: l := by
  unfold containsTok
  rw [List.any_eq_true]
  constructor
  · rintro ⟨t, ht, hp⟩
    rw [List.mem_tails] at ht
    rw [isPrefixOf_eq_true_iff] at hp
    exact ( List.IsPrefix.isInfix hp).trans ( List.IsSuffix.isInfix ht)
  · rintro ⟨s, t, hst⟩
    refine ⟨MARKER ++ t, ?_, ?_⟩
    · rw [List.mem_tails]
      exact ⟨s, by rw [← List.append_assoc]; exact hst⟩
    · rw [isPrefixOf_eq_true_iff]
      exact List.prefix_append _ _

theorem splitMarkerSkip_drop :
    ∀ (l : List Char) (k : Nat) (acc : List Char),
      splitMarkerSkip l k acc = splitMarkerSkip (l.drop k) 0 acc := by
  intro l
  induction l with
  | nil =>
    intro k acc
    cases k <;> rfl
  | cons c rest ih =>
    intro k acc
    cases k with
    | zero => rfl
    | succ k' =>
      rw [show splitMarkerSkip (c :: rest) (k' + 1) acc =
        splitMarkerSkip rest k' acc from rfl, ih k' acc]
      rfl

theorem acc_no_tok {acc l : List Char}
    (hinv : ∀ t : List Char, t ≠ [] → t.reverse <+: acc → ¬ MARKER <+: t ++ l) :
    ¬ MARKER <:+: acc.reverse := by
  rintro ⟨s, t', hst⟩
  have h2 := congrArg List.reverse hst
  rw [List.reverse_reverse] at h2
  refine hinv (MARKER ++ t')
    (fun h => marker_ne_nil (List.append_eq_nil.mp h).1) ⟨s.reverse, ?_⟩ ?_
  · rw [← h2]
    simp [List.reverse_append, List.append_assoc]
  · rw [List.append_assoc]
    exact List.prefix_append _ _

theorem splitMarkerSkip_segments :
    ∀ (n : Nat) (l acc : List Char), l.length ≤ n →
      (∀ t : List Char, t ≠ [] → t.reverse <+: acc → ¬ MARKER <+: t ++ l) →
      ∀ seg ∈ splitMarkerSkip l 0 acc, ¬ MARKER <:+: seg := by
  intro n
  induction n with
  | zero =>
    intro l acc hlen hinv seg hseg
    have hl : l = [] := List.length_eq_zero.mp (Nat.le_zero.mp hlen)
    subst hl
    simp only [splitMarkerSkip, List.mem_singleton] at hseg
    subst hseg
    exact acc_no_tok hinv
  | succ n' ih =>
    intro l acc hlen hinv seg hseg
    cases l with
    | nil =>
      simp only [splitMarkerSkip, List.mem_singleton] at hseg
      subst hseg
      exact acc_no_tok hinv
    | cons c rest =>
      have hlen' : rest.length ≤ n' := by
        simp only [List.length_cons] at hlen
        omega
      by_cases hm : MARKER.isPrefixOf (c :: rest) = true
      · simp only [splitMarkerSkip] at hseg
        rw [if_pos hm] at hseg
        rcases List.mem_cons.mp hseg with rfl | hseg'
        · exact acc_no_tok hinv
        · rw [splitMarkerSkip_drop] at hseg'
          refine ih (rest.drop (MARKER.length - 1)) [] ?_ ?_ seg hseg'
          · rw [List.length_drop]
            omega
          · intro t ht htr
            have h0 : t.reverse = [] := List.prefix_nil.mp htr
            rw [List.reverse_eq_nil_iff] at h0
            exact absurd h0 ht
      · simp only [splitMarkerSkip] at hseg
        rw [if_neg hm] at hseg
        refine ih rest (c :: acc) hlen' ?_ seg hseg
        intro t ht htr
        rcases hrev : t.reverse with _ | ⟨d, u⟩
        · rw [List.reverse_eq_nil_iff] at hrev
          exact absurd hrev ht
        · rw [hrev, List.cons_prefix_cons] at htr
          obtain ⟨hdc, hu⟩ := htr
          have ht' : t = u.reverse ++ [d] := by
            rw [← List.reverse_reverse t, hrev]
            simp
          rw [ht', List.append_assoc, List.singleton_append, hdc]
          cases hul : u with
          | nil =>
            subst hul
            simp only [List.reverse_nil, List.nil_append]
            rw [isPrefixOf_eq_true_iff] at hm
            exact hm
          | cons e u' =>
            subst hul
            exact hinv (e :: u').reverse (by simp)
              (by rw [List.reverse_reverse]; exact hu)

theorem splitMarker_segments {l : List Char} :
    ∀ seg ∈ splitMarker l, ¬ MARKER <:+: seg := by
  intro seg hseg
  refine splitMarkerSkip_segments l.length l [] (Nat.le_refl _) ?_ seg hseg
  intro t ht htr
  have h0 : t.reverse = [] := List.prefix_nil.mp htr
  rw [List.reverse_eq_nil_iff] at h0
  exact absurd h0 ht

theorem mem_paragraphsOf_within {seg p : List Char} (h : p ∈ paragraphsOf seg) :
    p <:+: seg := by
  unfold paragraphsOf at h
  rw [List.mem_filter] at h
  obtain ⟨hm, _⟩ := h
  obtain ⟨raw, hraw, rfl⟩ := List.mem_map.mp hm
  unfold rawParagraphs at hraw
  have h1 := splitParasAux_within seg [] raw hraw
  simp only [List.reverse_nil, List.nil_append] at h1
  exact (trimChars_within raw).trans h1

theorem pages_no_tok {buffer : String} {limit : Int} :
    ∀ page ∈ splitContentIntoPages buffer limit, ¬ MARKER <:+: page.data := by
  intro page hpage
  unfold splitContentIntoPages emitPages at hpage
  split at hpage
  · simp only [List.mem_singleton] at hpage
    subst hpage
    intro h
    rw [show ("" : String).data = ([] : List Char) from rfl, List.infix_nil] at h
    exact marker_ne_nil h
  · rw [List.mem_map] at hpage
    obtain ⟨q, hq, rfl⟩ := hpage
    obtain ⟨seg, hseg, g, hg, rfl⟩ := mem_allPages hq
    show ¬ MARKER <:+: pageOfGroup g
    have hsegtok : ¬ MARKER <:+: seg := splitMarker_segments seg hseg
    have hmem : ∀ p ∈ g, ¬ MARKER <:+: p := by
      intro p hp habs
      have hpmem : p ∈ paragraphsOf seg := by
        have hfl := @greedyGroups_flatten limit (paragraphsOf seg) []
        rw [List.nil_append] at hfl
        rw [← hfl]
        exact List.mem_flatten.mpr ⟨g, hg, hp⟩
      exact hsegtok (habs.trans (mem_paragraphsOf_within hpmem))
    intro habs
    exact joinPages_no_tok g hmem (habs.trans (trimChars_within (joinPages g)))

/-- C1 counterexample: the editing surface does NOT re-insert the page-break
marker.  The buffer `"A\n\n[PAGE_BREAK]\n\nB"` paginates into the two pages
`"A"` and `"B"` (a marker-introduced boundary); writing page 0 back unchanged
rebuilds the buffer as `"A\n\nB"`, which contains no marker and paginates into
a single page — the marker-introduced boundary is lost, contradicting the
claim that such boundaries are preserved on edit. -/
theorem C1_counterexample :
    splitContentIntoPages "A\n\n[PAGE_BREAK]\n\nB" 1800 = ["A", "B"] ∧
    updatePageContent "A\n\n[PAGE_BREAK]\n\nB" 1800 0 "A" = "A\n\nB" ∧
    containsTok "A\n\nB".data = false ∧
    splitContentIntoPages "A\n\nB" 1800 = ["A\n\nB"] := by decide

/-- C1 (amended): when the editing surface writes an edited page back, the new
buffer is rebuilt by joining the trimmed non-empty pages with blank-line
separators only; the page-break marker is never re-inserted, so no page
boundary (marker-introduced or soft-limit-driven) is preserved — all are
recomputed from the rebuilt content on the next read.  Formally: if the
replacement text contains no marker, the rebuilt buffer contains no marker. -/
theorem C1_edit_drops_markers (content : String) (limit : Int) (i : Nat)
    (value : String) (hv : containsTok value.data = false) :
    containsTok (updatePageContent content limit i value).data = false := by
  rw [Bool.eq_false_iff]
  intro habs
  have h := containsTok_iff.mp habs
  have hL : (updatePageContent content limit i value).data =
      joinPages ((((splitContentIntoPages content limit).set i value).map
        (fun p => trimChars p.data)).filter (fun p => !p.isEmpty)) := rfl
  rw [hL] at h
  refine joinPages_no_tok _ ?_ h
  intro p hp
  rw [List.mem_filter] at hp
  obtain ⟨hm, _⟩ := hp
  obtain ⟨y, hy, rfl⟩ := List.mem_map.mp hm
  rcases List.mem_or_eq_of_mem_set hy with hy' | heq
  · intro habs2
    exact pages_no_tok y hy' (habs2.trans (trimChars_within y.data))
  · subst heq
    intro habs2
    have hc := containsTok_iff.mpr (habs2.trans (trimChars_within y.data))
    rw [hv] at hc
    exact Bool.false_ne_true hc

/-- Witness for the amended C1 at a concrete buffer, index and value. -/
theorem C1_edit_drops_markers_witness :
    containsTok "X".data = false ∧
    containsTok (updatePageContent "A\n\n[PAGE_BREAK]\n\nB" 1800 0 "X").data = false :=
  ⟨by decide, C1_edit_drops_markers "A\n\n[PAGE_BREAK]\n\nB" 1800 0 "X" (by decide)⟩

/-- Witness for C2 at `s = "Hello\n\nWorld"`, `limit = 6`. -/
theorem C2_round_trip_witness :
    (0 < (6:Int)) ∧ containsTok "Hello\n\nWorld".data = false ∧
    paragraphsOf (joinPages
      ((splitContentIntoPages "Hello\n\nWorld" 6).map String.data)) =
      paragraphsOf "Hello\n\nWorld".data :=
  ⟨by decide, by decide, C2_round_trip "Hello\n\nWorld" 6 (by decide) (by decide)⟩

/-! ## C7: the preflight analyzer on the empty buffer -/

/-- C7: `analyzeDocument` is total over all string inputs (every input has a
value), and on the empty string it reports severity `none` with an empty issue
list. -/
theorem C7_analyze_total_empty :
    (∀ s : String, ∃ r, analyzeDocument s = r) ∧
    analyzeDocument "" = ⟨Severity.none, []⟩ :=
  ⟨fun _ => ⟨_, rfl⟩, by decide⟩

/-! ## C8: the markdown url transform -/

theorem append_prefix_iff {α : Type} {a b l : List α} :
    a ++ b <+: l ↔ a <+: l ∧ b <+: l.drop a.length := by
  induction a generalizing l with
  | nil => simp
  | cons c a' ih =>
    cases l with
    | nil =>
      constructor
      · intro h
        exact absurd (List.prefix_nil.mp h) (by simp)
      · intro ⟨h, _⟩
        exact absurd (List.prefix_nil.mp h) (by simp)
    | cons d t =>
      rw [List.cons_append, List.cons_prefix_cons, List.cons_prefix_cons]
      simp only [List.length_cons, List.drop_succ_cons]
      rw [ih]
      tauto

theorem urlSchemeTest_eq_claim (t : List Char) :
    urlSchemeTest t = claimUrlAllowed t := by
  unfold urlSchemeTest claimUrlAllowed
  simp only [List.any_cons, List.any_nil, Bool.or_false]
  rw [Bool.eq_iff_iff]
  simp only [Bool.or_eq_true, Bool.and_eq_true, isPrefixOf_eq_true_iff]
  rw [show (['h','t','t','p',':'] : List Char) = ['h','t','t','p'] ++ [':'] from rfl,
    show (['h','t','t','p','s',':'] : List Char) = ['h','t','t','p'] ++ ['s',':'] from rfl,
    append_prefix_iff, append_prefix_iff]
  tauto

/-- C8: `markdownUrlTransform` returns the trimmed url exactly when the
trimmed value is non-empty and begins, case-insensitively, with one of the
prefixes `blob:`, `data:`, `http:`, `https:`, `mailto:`, `tel:`, `/`, `./`,
`../`, `#`; for every other input (null-ish via `Option.none`, whitespace-only,
`javascript:` urls, ...) it returns the empty string. -/
theorem C8_markdownUrlTransform (url : Option String) :
    markdownUrlTransform url =
      if (!(trimChars (url.getD "").data).isEmpty &&
          claimUrlAllowed (trimChars (url.getD "").data)) = true
      then String.mk (trimChars (url.getD "").data)
      else "" := by
  unfold markdownUrlTransform
  by_cases he : (trimChars (url.getD "").data).isEmpty = true
  · simp [he]
  · rw [Bool.not_eq_true] at he
    rw [if_neg (by simp [he]), urlSchemeTest_eq_claim]
    by_cases hc : claimUrlAllowed (trimChars (url.getD "").data) = true
    · rw [if_pos hc, if_pos (by simp [he, hc])]
    · rw [Bool.not_eq_true] at hc
      rw [if_neg (by simp [hc]), if_neg (by simp [hc])]

/-! ## C10: html escaping for the print preview -/

theorem mem_replaceChar {x y : Char} {rep l : List Char}
    (h : y ∈ replaceChar x rep l) : y ∈ rep ∨ y ∈ l := by
  unfold replaceChar at h
  rw [List.mem_flatten] at h
  obtain ⟨piece, hpiece, hy⟩ := h
  obtain ⟨c, hc, rfl⟩ := List.mem_map.mp hpiece
  by_cases hcx : c = x
  · rw [if_pos hcx] at hy
    exact Or.inl hy
  · rw [if_neg hcx] at hy
    simp only [List.mem_singleton] at hy
    subst hy
    exact Or.inr hc

theorem not_mem_replaceChar_self {x : Char} {rep l : List Char} (hrep : x ∉ rep) :
    x ∉ replaceChar x rep l := by
  intro h
  unfold replaceChar at h
  rw [List.mem_flatten] at h
  obtain ⟨piece, hpiece, hy⟩ := h
  obtain ⟨c, hc, rfl⟩ := List.mem_map.mp hpiece
  by_cases hcx : c = x
  · rw [if_pos hcx] at hy
    exact hrep hy
  · rw [if_neg hcx] at hy
    simp only [List.mem_singleton] at hy
    exact hcx hy.symm

theorem escapeHtml_no_markup (s : String) :
    '<' ∉ (escapeHtml s).data ∧ '>' ∉ (escapeHtml s).data ∧
    '"' ∉ (escapeHtml s).data ∧ '\'' ∉ (escapeHtml s).data := by
  unfold escapeHtml
  refine ⟨?_, ?_, ?_, ?_⟩
  · intro h
    rcases mem_replaceChar h with h4 | h
    · exact absurd h4 (by decide)
    rcases mem_replaceChar h with h3 | h
    · exact absurd h3 (by decide)
    rcases mem_replaceChar h with h2 | h
    · exact absurd h2 (by decide)
    exact not_mem_replaceChar_self (by decide) h
  · intro h
    rcases mem_replaceChar h with h4 | h
    · exact absurd h4 (by decide)
    rcases mem_replaceChar h with h3 | h
    · exact absurd h3 (by decide)
    exact not_mem_replaceChar_self (by decide) h
  · intro h
    rcases mem_replaceChar h with h4 | h
    · exact absurd h4 (by decide)
    exact not_mem_replaceChar_self (by decide) h
  · intro h
    exact not_mem_replaceChar_self (by decide) h

/-- C10: for every input, `escapeHtml` output contains no `<`, `>`, `"` or
`'`, and hence the document body interpolated into the print-preview HTML by
`openPdfPrintPreview` contains no unescaped markup characters. -/
theorem C10_escape_no_markup (s : String) :
    ('<' ∉ (escapeHtml s).data ∧ '>' ∉ (escapeHtml s).data ∧
      '"' ∉ (escapeHtml s).data ∧ '\'' ∉ (escapeHtml s).data) ∧
    ('<' ∉ (pdfEscapedBody s).data ∧ '>' ∉ (pdfEscapedBody s).data ∧
      '"' ∉ (pdfEscapedBody s).data ∧ '\'' ∉ (pdfEscapedBody s).data) := by
  refine ⟨escapeHtml_no_markup s, ?_⟩
  unfold pdfEscapedBody
  split
  · exact escapeHtml_no_markup _
  · exact escapeHtml_no_markup _

/-! ## C9: the share-url codec round trip -/

theorem char_toNat_valid (c : Char) :
    c.toNat < 1114112 ∧ ¬(55296 ≤ c.toNat ∧ c.toNat < 57344) := by
  have h := c.valid
  have he : c.toNat = c.val.toNat := rfl
  rcases h with h | ⟨h1, h2⟩
  · have h' : c.val.toNat < 55296 := UInt32.toNat_lt_of_lt (by decide) h
    rw [he]
    exact ⟨by omega, by omega⟩
  · have h1' : (57343:Nat) < c.val.toNat := UInt32.lt_toNat_of_lt (by decide) h1
    have h2' : c.val.toNat < 1114112 := UInt32.toNat_lt_of_lt (by decide) h2
    rw [he]
    exact ⟨h2', by omega⟩

theorem utf8EncodeChar_lt {c : Char} : ∀ b ∈ utf8EncodeChar c, b < 256 := by
  intro b hb
  have hv := char_toNat_valid c
  unfold utf8EncodeChar at hb
  split at hb
  · simp only [List.mem_singleton] at hb
    omega
  · split at hb
    · simp only [List.mem_cons, List.mem_singleton, List.not_mem_nil, or_false] at hb
      rcases hb with rfl | rfl <;> omega
    · split at hb
      · simp only [List.mem_cons, List.not_mem_nil, or_false] at hb
        rcases hb with rfl | rfl | rfl <;> omega
      · simp only [List.mem_cons, List.not_mem_nil, or_false] at hb
        rcases hb with rfl | rfl | rfl | rfl <;> omega

theorem utf8Encode_lt {s : List Char} : ∀ b ∈ utf8Encode s, b < 256 := by
  intro b hb
  unfold utf8Encode at hb
  rw [List.mem_flatten] at hb
  obtain ⟨piece, hpiece, hbp⟩ := hb
  obtain ⟨c, _, rfl⟩ := List.mem_map.mp hpiece
  exact utf8EncodeChar_lt b hbp

theorem utf8Decode_nil : utf8Decode [] = [] := by
  rw [utf8Decode]

theorem utf8Decode_ascii {b : Nat} (h : b < 128) (rest : List Nat) :
    utf8Decode (b :: rest) = Char.ofNat b :: utf8Decode rest := by
  have hs : utf8Step b rest = (Char.ofNat b, 0) := by
    unfold utf8Step
    rw [if_pos h]
  rw [utf8Decode, hs]
  simp

theorem utf8Decode_two {b b2 : Nat} (h1 : 194 ≤ b) (h2 : b ≤ 223)
    (h3 : 128 ≤ b2) (h4 : b2 < 192) (rest : List Nat) :
    utf8Decode (b :: b2 :: rest) =
      Char.ofNat ((b - 192) * 64 + (b2 - 128)) :: utf8Decode rest := by
  have hs : utf8Step b (b2 :: rest) =
      (Char.ofNat ((b - 192) * 64 + (b2 - 128)), 1) := by
    unfold utf8Step
    rw [if_neg (by omega), if_pos ⟨h1, h2⟩]
    show (if 128 ≤ b2 ∧ b2 < 192 then
        (Char.ofNat ((b - 192) * 64 + (b2 - 128)), 1) else (replChar, 0)) = _
    rw [if_pos ⟨h3, h4⟩]
  rw [utf8Decode, hs]
  simp

theorem utf8Decode_three {b b2 b3 : Nat} (h1 : 224 ≤ b) (h2 : b ≤ 239)
    (h3 : 128 ≤ b2) (h4 : b2 < 192) (h5 : 128 ≤ b3) (h6 : b3 < 192)
    (h7 : b = 224 → 160 ≤ b2) (h8 : b = 237 → b2 < 160) (rest : List Nat) :
    utf8Decode (b :: b2 :: b3 :: rest) =
      Char.ofNat ((b - 224) * 4096 + (b2 - 128) * 64 + (b3 - 128)) ::
        utf8Decode rest := by
  have hs : utf8Step b (b2 :: b3 :: rest) =
      (Char.ofNat ((b - 224) * 4096 + (b2 - 128) * 64 + (b3 - 128)), 2) := by
    unfold utf8Step
    rw [if_neg (by omega), if_neg (by omega), if_pos ⟨h1, h2⟩]
    show (if (128 ≤ b2 ∧ b2 < 192) ∧ (128 ≤ b3 ∧ b3 < 192) ∧
          (b = 224 → 160 ≤ b2) ∧ (b = 237 → b2 < 160) then
        (Char.ofNat ((b - 224) * 4096 + (b2 - 128) * 64 + (b3 - 128)), 2)
      else (replChar, 0)) = _
    rw [if_pos ⟨⟨h3, h4⟩, ⟨h5, h6⟩, h7, h8⟩]
  rw [utf8Decode, hs]
  simp

theorem utf8Decode_four {b b2 b3 b4 : Nat} (h1 : 240 ≤ b) (h2 : b ≤ 244)
    (h3 : 128 ≤ b2) (h4 : b2 < 192) (h5 : 128 ≤ b3) (h6 : b3 < 192)
    (h7 : 128 ≤ b4) (h8 : b4 < 192) (h9 : b = 240 → 144 ≤ b2)
    (h10 : b = 244 → b2 < 144) (rest : List Nat) :
    utf8Decode (b :: b2 :: b3 :: b4 :: rest) =
      Char.ofNat ((b - 240) * 262144 + (b2 - 128) * 4096 + (b3 - 128) * 64 +
        (b4 - 128)) :: utf8Decode rest := by
  have hs : utf8Step b (b2 :: b3 :: b4 :: rest) =
      (Char.ofNat ((b - 240) * 262144 + (b2 - 128) * 4096 + (b3 - 128) * 64 +
        (b4 - 128)), 3) := by
    unfold utf8Step
    rw [if_neg (by omega), if_neg (by omega), if_neg (by omega), if_pos ⟨h1, h2⟩]
    show (if (128 ≤ b2 ∧ b2 < 192) ∧ (128 ≤ b3 ∧ b3 < 192) ∧
          (128 ≤ b4 ∧ b4 < 192) ∧ (b = 240 → 144 ≤ b2) ∧
          (b = 244 → b2 < 144) then
        (Char.ofNat ((b - 240) * 262144 + (b2 - 128) * 4096 + (b3 - 128) * 64 +
          (b4 - 128)), 3)
      else (replChar, 0)) = _
    rw [if_pos ⟨⟨h3, h4⟩, ⟨h5, h6⟩, ⟨h7, h8⟩, h9, h10⟩]
  rw [utf8Decode, hs]
  simp

theorem utf8Decode_encChar (c : Char) (bs : List Nat) :
    utf8Decode (utf8EncodeChar c ++ bs) = c :: utf8Decode bs := by
  obtain ⟨hvu, hvs⟩ := char_toNat_valid c
  unfold utf8EncodeChar
  by_cases hc1 : c.toNat < 128
  · rw [if_pos hc1]
    show utf8Decode (c.toNat :: bs) = _
    rw [utf8Decode_ascii hc1, Char.ofNat_toNat]
  · rw [if_neg hc1]
    by_cases hc2 : c.toNat < 2048
    · rw [if_pos hc2]
      show utf8Decode ((192 + c.toNat / 64) :: (128 + c.toNat % 64) :: bs) = _
      rw [utf8Decode_two (by omega) (by omega) (by omega) (by omega)]
      have he : (192 + c.toNat / 64 - 192) * 64 + (128 + c.toNat % 64 - 128) =
          c.toNat := by omega
      rw [he, Char.ofNat_toNat]
    · rw [if_neg hc2]
      by_cases hc3 : c.toNat < 65536
      · rw [if_pos hc3]
        show utf8Decode ((224 + c.toNat / 4096) :: (128 + c.toNat / 64 % 64) ::
          (128 + c.toNat % 64) :: bs) = _
        rw [utf8Decode_three (by omega) (by omega) (by omega) (by omega)
          (by omega) (by omega) (by omega) (by omega)]
        have he : (224 + c.toNat / 4096 - 224) * 4096 +
            (128 + c.toNat / 64 % 64 - 128) * 64 +
            (128 + c.toNat % 64 - 128) = c.toNat := by omega
        rw [he, Char.ofNat_toNat]
      · rw [if_neg hc3]
        show utf8Decode ((240 + c.toNat / 262144) :: (128 + c.toNat / 4096 % 64) ::
          (128 + c.toNat / 64 % 64) :: (128 + c.toNat % 64) :: bs) = _
        rw [utf8Decode_four (by omega) (by omega) (by omega) (by omega) (by omega)
          (by omega) (by omega) (by omega) (by omega) (by omega)]
        have he : (240 + c.toNat / 262144 - 240) * 262144 +
            (128 + c.toNat / 4096 % 64 - 128) * 4096 +
            (128 + c.toNat / 64 % 64 - 128) * 64 +
            (128 + c.toNat % 64 - 128) = c.toNat := by omega
        rw [he, Char.ofNat_toNat]

theorem utf8_round (s : List Char) : utf8Decode (utf8Encode s) = s := by
  induction s with
  | nil => exact utf8Decode_nil
  | cons c t ih =>
    have he : utf8Encode (c :: t) = utf8EncodeChar c ++ utf8Encode t := by
      unfold utf8Encode
      rw [List.map_cons, List.flatten_cons]
    rw [he, utf8Decode_encChar, ih]

theorem b64val_b64char : ∀ n, n < 64 → b64val (b64char n) = n := by decide

theorem b64char_ne_eq : ∀ n, n < 64 → b64char n ≠ '=' := by decide

theorem b64char_ne_dash : ∀ n, n < 64 → b64char n ≠ '-' := by decide

theorem b64char_ne_und : ∀ n, n < 64 → b64char n ≠ '_' := by decide

theorem urlStd_safe (c : Char) (h1 : c ≠ '-') (h2 : c ≠ '_') :
    urlStdChar (urlSafeChar c) = c := by
  unfold urlSafeChar urlStdChar
  by_cases hp : c = '+'
  · subst hp
    decide
  · by_cases hs : c = '/'
    · subst hs
      decide
    · rw [if_neg hp, if_neg hs, if_neg h1, if_neg h2]

theorem urlStdChar_eq_iff (c : Char) : urlStdChar c = '=' ↔ c = '=' := by
  unfold urlStdChar
  by_cases h1 : c = '-'
  · subst h1
    simp
  · by_cases h2 : c = '_'
    · subst h2
      simp
    · rw [if_neg h1, if_neg h2]

theorem map_stripEq {g : Char → Char} (hg : ∀ c, g c = '=' ↔ c = '=')
    (l : List Char) : (stripEq l).map g = stripEq (l.map g) := by
  have hpg : ((fun c => decide (c = '=')) ∘ g) = fun c : Char => decide (c = '=') := by
    funext c
    exact decide_eq_decide.mpr (hg c)
  show ((l.reverse.dropWhile (fun c => c = '=')).reverse).map g =
    ((l.map g).reverse.dropWhile (fun c => c = '=')).reverse
  rw [List.map_reverse]
  congr 1
  rw [← List.map_reverse, List.dropWhile_map, hpg]

theorem b64char_canon (n : Nat) : ∃ k, k < 64 ∧ b64char n = b64char k := by
  by_cases h : n < 64
  · exact ⟨n, h, rfl⟩
  · refine ⟨0, by omega, ?_⟩
    show b64Alphabet.getD n 'A' = b64Alphabet.getD 0 'A'
    have hlen : b64Alphabet.length = 64 := by decide
    rw [List.getD_eq_getElem?_getD, List.getElem?_eq_none (by omega)]
    decide

theorem b64encodeBytes_chars :
    ∀ B : List Nat, ∀ ch ∈ b64encodeBytes B,
      (∃ k, k < 64 ∧ ch = b64char k) ∨ ch = '=' := by
  intro B
  induction B using b64encodeBytes.induct with
  | case1 =>
    intro ch hch
    simp [b64encodeBytes] at hch
  | case2 a =>
    intro ch hch
    simp only [b64encodeBytes, List.mem_cons, List.not_mem_nil, or_false] at hch
    rcases hch with rfl | rfl | rfl | rfl
    · exact Or.inl (b64char_canon _)
    · exact Or.inl (b64char_canon _)
    · exact Or.inr rfl
    · exact Or.inr rfl
  | case3 a b =>
    intro ch hch
    simp only [b64encodeBytes, List.mem_cons, List.not_mem_nil, or_false] at hch
    rcases hch with rfl | rfl | rfl | rfl
    · exact Or.inl (b64char_canon _)
    · exact Or.inl (b64char_canon _)
    · exact Or.inl (b64char_canon _)
    · exact Or.inr rfl
  | case4 a b c rest ih =>
    intro ch hch
    simp only [b64encodeBytes, List.mem_cons] at hch
    rcases hch with rfl | rfl | rfl | rfl | hch'
    · exact Or.inl (b64char_canon _)
    · exact Or.inl (b64char_canon _)
    · exact Or.inl (b64char_canon _)
    · exact Or.inl (b64char_canon _)
    · exact ih ch hch'

theorem stripEq_two (x1 x2 : Char) (h2 : x2 ≠ '=') :
    stripEq [x1, x2, '=', '='] = [x1, x2] := by
  unfold stripEq
  simp [List.dropWhile_cons, h2]

theorem stripEq_three (x1 x2 x3 : Char) (h3 : x3 ≠ '=') :
    stripEq [x1, x2, x3, '='] = [x1, x2, x3] := by
  unfold stripEq
  simp [List.dropWhile_cons, h3]

theorem stripEq_four (x1 x2 x3 x4 : Char) (h4 : x4 ≠ '=') :
    stripEq [x1, x2, x3, x4] = [x1, x2, x3, x4] := by
  unfold stripEq
  simp [List.dropWhile_cons, h4]

theorem stripEq_cons4 (x1 x2 x3 x4 : Char) (q : List Char)
    (hq : stripEq q ≠ []) :
    stripEq (x1 :: x2 :: x3 :: x4 :: q) = x1 :: x2 :: x3 :: x4 :: stripEq q := by
  have hne : q.reverse.dropWhile (fun c => c = '=') ≠ [] := by
    intro h0
    apply hq
    show (q.reverse.dropWhile (fun c => c = '=')).reverse = []
    rw [h0]
    rfl
  show ((x1 :: x2 :: x3 :: x4 :: q).reverse.dropWhile (fun c => c = '=')).reverse
      = x1 :: x2 :: x3 :: x4 :: (q.reverse.dropWhile (fun c => c = '=')).reverse
  have hsplit : (x1 :: x2 :: x3 :: x4 :: q).reverse
      = q.reverse ++ [x4, x3, x2, x1] := by
    simp
  rw [hsplit, List.dropWhile_append, if_neg (by simpa using hne),
    List.reverse_append]
  rfl

theorem padEq_cons4 (x1 x2 x3 x4 : Char) (q : List Char) :
    padEq (x1 :: x2 :: x3 :: x4 :: q) = x1 :: x2 :: x3 :: x4 :: padEq q := by
  show (x1 :: x2 :: x3 :: x4 :: q)
        ++ List.replicate ((4 - (x1 :: x2 :: x3 :: x4 :: q).length % 4) % 4) '='
      = x1 :: x2 :: x3 :: x4 :: (q ++ List.replicate ((4 - q.length % 4) % 4) '=')
  simp only [List.length_cons, List.cons_append]
  have harg : (4 - (q.length + 1 + 1 + 1 + 1) % 4) % 4 = (4 - q.length % 4) % 4 := by
    omega
  rw [harg]

theorem padEq_stripEq_encode :
    ∀ B : List Nat, padEq (stripEq (b64encodeBytes B)) = b64encodeBytes B := by
  intro B
  induction B using b64encodeBytes.induct with
  | case1 => rfl
  | case2 a =>
    simp only [b64encodeBytes]
    rw [stripEq_two _ _ (b64char_ne_eq _ (by omega))]
    rfl
  | case3 a b =>
    simp only [b64encodeBytes]
    rw [stripEq_three _ _ _ (b64char_ne_eq _ (by omega))]
    rfl
  | case4 a b c rest ih =>
    simp only [b64encodeBytes]
    by_cases hE : b64encodeBytes rest = []
    · rw [hE]
      rw [stripEq_four _ _ _ _ (b64char_ne_eq _ (by omega))]
      simp [padEq]
    · have hstrip : stripEq (b64encodeBytes rest) ≠ [] := by
        intro h0
        apply hE
        have hpe : padEq ([] : List Char) = [] := rfl
        rw [h0, hpe] at ih
        exact ih.symm
      rw [stripEq_cons4 _ _ _ _ _ hstrip, padEq_cons4, ih]

theorem b64decode_encode :
    ∀ B : List Nat, (∀ b ∈ B, b < 256) →
      b64decodeChars (b64encodeBytes B) = B := by
  intro B
  induction B using b64encodeBytes.induct with
  | case1 =>
    intro _
    rfl
  | case2 a =>
    intro hB
    have ha : a < 256 := hB a (by simp)
    simp only [b64encodeBytes, b64decodeChars]
    rw [if_pos trivial]
    rw [b64val_b64char (a / 4) (by omega), b64val_b64char (a % 4 * 16) (by omega)]
    have e1 : a / 4 * 4 + a % 4 * 16 / 16 = a := by omega
    rw [e1]
  | case3 a b =>
    intro hB
    have ha : a < 256 := hB a (by simp)
    have hb : b < 256 := hB b (by simp)
    simp only [b64encodeBytes, b64decodeChars]
    rw [if_neg (b64char_ne_eq (b % 16 * 4) (by omega)), if_pos trivial]
    rw [b64val_b64char (a / 4) (by omega),
      b64val_b64char (a % 4 * 16 + b / 16) (by omega),
      b64val_b64char (b % 16 * 4) (by omega)]
    have e1 : a / 4 * 4 + (a % 4 * 16 + b / 16) / 16 = a := by omega
    have e2 : (a % 4 * 16 + b / 16) % 16 * 16 + b % 16 * 4 / 4 = b := by omega
    rw [e1, e2]
  | case4 a b c rest ih =>
    intro hB
    have ha : a < 256 := hB a (by simp)
    have hb : b < 256 := hB b (by simp)
    have hc : c < 256 := hB c (by simp)
    simp only [b64encodeBytes, b64decodeChars]
    rw [if_neg (b64char_ne_eq (b % 16 * 4 + c / 64) (by omega)),
      if_neg (b64char_ne_eq (c % 64) (by omega))]
    rw [b64val_b64char (a / 4) (by omega),
      b64val_b64char (a % 4 * 16 + b / 16) (by omega),
      b64val_b64char (b % 16 * 4 + c / 64) (by omega),
      b64val_b64char (c % 64) (by omega)]
    rw [ih (fun x hx => hB x (by simp [hx]))]
    have e1 : a / 4 * 4 + (a % 4 * 16 + b / 16) / 16 = a := by omega
    have e2 : (a % 4 * 16 + b / 16) % 16 * 16 + (b % 16 * 4 + c / 64) / 4 = b := by
      omega
    have e3 : (b % 16 * 4 + c / 64) % 4 * 64 + c % 64 = c := by omega
    rw [e1, e2, e3]

theorem map_id_of_mem {l : List Char} {f : Char → Char}
    (h : ∀ a ∈ l, f a = a) : l.map f = l := by
  induction l with
  | nil => rfl
  | cons x xs ih =>
    simp only [List.map_cons]
    rw [h x (by simp), ih (fun a ha => h a (by simp [ha]))]

theorem map_safe_std_encode (B : List Nat) :
    ((b64encodeBytes B).map urlSafeChar).map urlStdChar = b64encodeBytes B := by
  rw [List.map_map]
  apply map_id_of_mem
  intro a ha
  show urlStdChar (urlSafeChar a) = a
  rcases b64encodeBytes_chars B a ha with ⟨k, hk, hak⟩ | hak
  · rw [hak]
    exact urlStd_safe _ (b64char_ne_dash _ hk) (b64char_ne_und _ hk)
  · rw [hak]
    decide

/-- C9: the share-URL codec round-trips. For every string (modelled as its
sequence of Unicode scalar values), decoding the url-safe base64 encoding
recovers the original string: UTF-8 decode inverts UTF-8 encode, base64
decode inverts base64 encode on bytes, padding restoration inverts padding
stripping on encoder output, and the url-safe character maps are mutually
inverse on the alphabet. -/
theorem C9_share_codec_round_trip (s : String) :
    decodeBase64Url (encodeBase64Url s) = s := by
  unfold encodeBase64Url decodeBase64Url
  show String.mk (utf8Decode (b64decodeChars (padEq
      ((stripEq ((b64encodeBytes (utf8Encode s.data)).map urlSafeChar)).map
        urlStdChar)))) = s
  rw [map_stripEq urlStdChar_eq_iff, map_safe_std_encode, padEq_stripEq_encode,
    b64decode_encode _ utf8Encode_lt, utf8_round]

end DocKernel
